import Mathlib

/-!
Verification of the torrent-metadata core of `update_movies_index.py`:
the bencode decoder with raw `info`-span capture, the infohash deriver,
the magnet builder, the file-set extractor and the directory matcher.

The Python code is shallowly embedded: byte buffers are `List Nat`,
Python exceptions are an explicit error type, and the recursive decoder
is driven by a fuel parameter large enough for every input it is run on
(the fuel models nothing in the source; it only makes the recursion a
total Lean function, and exhaustion is a distinguished error value that
no theorem below ever identifies with a real decode outcome).
-/

/-- Raw byte buffers (Python `bytes`): each element is one byte value. -/
abbrev Bytes := List Nat

/-- The Python exceptions the embedded core can raise.
`bencodeError` is the script's own `BencodeError(msg)`; `valueError` models
the interpreter's `ValueError` (from `bytes.index` misses and failed `int()`
conversions); `typeError` models `TypeError` (from `b"" in v` on an `int`);
`stackOverflow` is the fuel sentinel of the embedding. -/
inductive PyErr where
  | bencodeError (msg : String)
  | valueError
  | typeError
  | stackOverflow
deriving DecidableEq

/-- Decoded bencode values: integers, byte strings, lists, and dictionaries
(Python `dict` keyed by `bytes`, modelled as an insertion-ordered
association list, matching Python dict iteration order). -/
inductive Bencode where
  | int (n : Int)
  | bstr (s : Bytes)
  | blist (l : List Bencode)
  | bdict (d : List (Bytes × Bencode))

/-- Python slicing `data[a:b]` for `0 ≤ a ≤ b` (clamps at the end of the
buffer exactly as Python slices do). -/
def pySlice (data : Bytes) (a b : Nat) : Bytes :=
  (data.drop a).take (b - a)

/-- Index of the first occurrence of a byte in a buffer, or none. -/
def pyFindIdx (b : Nat) : Bytes → Option Nat
  | [] => none
  | c :: rest => if c = b then some 0 else (pyFindIdx b rest).map (· + 1)

/-- Python `data.index(bytes([b]), start)`: first index `≥ start` holding
byte `b`; a miss raises `ValueError` at the call site (none here). -/
def pyIndexFrom (data : Bytes) (b : Nat) (start : Nat) : Option Nat :=
  (pyFindIdx b (data.drop start)).map (· + start)

/-- ASCII decimal digit. -/
def isPyDigit (b : Nat) : Bool := 48 ≤ b && b ≤ 57

/-- The six ASCII whitespace bytes Python's `int()` strips. -/
def isPySpace (b : Nat) : Bool :=
  b = 32 || b = 9 || b = 10 || b = 11 || b = 12 || b = 13

/-- Leading and trailing whitespace stripped, as `int()` does. -/
def pyStripSpace (bs : Bytes) : Bytes :=
  ((bs.dropWhile isPySpace).reverse.dropWhile isPySpace).reverse

/-- Digit run of Python's `int()` after the first digit: further digits,
with single underscores allowed between digits. -/
def pyDigitsGo (acc : Nat) : Bytes → Option Nat
  | [] => some acc
  | b :: bs =>
    if isPyDigit b then pyDigitsGo (acc * 10 + (b - 48)) bs
    else if b = 95 then
      match bs with
      | b2 :: bs2 =>
        if isPyDigit b2 then pyDigitsGo (acc * 10 + (b2 - 48)) bs2 else none
      | [] => none
    else none

/-- A nonempty digit run (underscore grouping allowed), or none. -/
def pyDigits : Bytes → Option Nat
  | [] => none
  | b :: bs => if isPyDigit b then pyDigitsGo (b - 48) bs else none

/-- Python `int(bs)` on a byte string: optional surrounding ASCII
whitespace, an optional single sign, then digits with optional single
underscores between digits; anything else raises `ValueError` (none). -/
def pyIntOfBytes (bs : Bytes) : Option Int :=
  match pyStripSpace bs with
  | 43 :: rest => (pyDigits rest).map (fun n => (n : Int))
  | 45 :: rest => (pyDigits rest).map (fun n => -(n : Int))
  | rest => (pyDigits rest).map (fun n => (n : Int))

/-- Python `a or b` on `Optional[bytes]` operands: `None` and `b""` are
falsy, anything else wins. Used for `info_slice = info_slice or sub`. -/
def pyOr (a b : Option Bytes) : Option Bytes :=
  match a with
  | some l => if l = [] then b else some l
  | none => b

/-- Python `d[k] = v` on a dict: replace the value at an existing key in
place, else append the new binding (insertion order preserved). -/
def pyDictInsert (d : List (Bytes × Bencode)) (k : Bytes) (v : Bencode) :
    List (Bytes × Bencode) :=
  match d with
  | [] => [(k, v)]
  | (k1, v1) :: rest =>
    if k1 = k then (k1, v) :: rest else (k1, v1) :: pyDictInsert rest k v

/-- Python `d.get(k)` on a dict. -/
def pyGet (d : List (Bytes × Bencode)) (k : Bytes) : Option Bencode :=
  match d with
  | [] => none
  | (k1, v1) :: rest => if k1 = k then some v1 else pyGet rest k

/-- Python `k in d` on a dict. -/
def pyHasKey (d : List (Bytes × Bencode)) (k : Bytes) : Bool :=
  match d with
  | [] => false
  | (k1, _) :: rest => if k1 = k then true else pyHasKey rest k

/-- The byte string `b"info"`. -/
def infoKey : Bytes := [105, 110, 102, 111]

/-- What one `_bdecode` activation returns: `(value, next_index,
info_slice_or_none)`, or the exception it raises. -/
abbrev DecResult := Except PyErr (Bencode × Nat × Option Bytes)

/-- The control position inside `_bdecode`: decoding a value at an offset,
or inside the `while` loop of the list or dict branch with the
accumulated elements and captured slice so far. -/
inductive DFrame where
  | val (i : Nat)
  | listLoop (i : Nat) (acc : List Bencode) (sl : Option Bytes)
  | dictLoop (i : Nat) (acc : List (Bytes × Bencode)) (sl : Option Bytes)

/-- The `_bdecode` recursion of the source, one Lean equation per branch of
the Python function; `cap` is `capture_info`. Fuel only bounds the
recursion depth of the embedding. -/
def bdecodeCore (data : Bytes) : Nat → Bool → DFrame → DecResult
  | 0, _, _ => .error .stackOverflow
  | fuel + 1, cap, .val i =>
    if data.length ≤ i then .error (.bencodeError "Unexpected end of data")
    else
      let b := data.getD i 0
      if b = 105 then
        match pyIndexFrom data 101 i with
        | none => .error .valueError
        | some j =>
          match pyIntOfBytes (pySlice data (i + 1) j) with
          | none => .error .valueError
          | some n => .ok (.int n, j + 1, none)
      else if b = 108 then
        bdecodeCore data fuel cap (.listLoop (i + 1) [] none)
      else if b = 100 then
        bdecodeCore data fuel cap (.dictLoop (i + 1) [] none)
      else if 48 ≤ b ∧ b ≤ 57 then
        match pyIndexFrom data 58 i with
        | none => .error .valueError
        | some j =>
          match pyIntOfBytes (pySlice data i j) with
          | none => .error .valueError
          | some len =>
            .ok (.bstr (pySlice data (j + 1) (j + 1 + len.toNat)),
                 j + 1 + len.toNat, none)
      else .error (.bencodeError "Invalid bencode prefix")
  | fuel + 1, cap, .listLoop i acc sl =>
    if pySlice data i (i + 1) = [101] then .ok (.blist acc, i + 1, sl)
    else
      match bdecodeCore data fuel cap (.val i) with
      | .error e => .error e
      | .ok (v, i2, sub) =>
        bdecodeCore data fuel cap (.listLoop i2 (acc ++ [v]) (pyOr sl sub))
  | fuel + 1, cap, .dictLoop i acc sl =>
    if pySlice data i (i + 1) = [101] then .ok (.bdict acc, i + 1, sl)
    else
      match bdecodeCore data fuel false (.val i) with
      | .error e => .error e
      | .ok (k, i1, _) =>
        match k with
        | .bstr kb =>
          if cap ∧ kb = infoKey then
            match bdecodeCore data fuel false (.val i1) with
            | .error e => .error e
            | .ok (v, i2, _) =>
              bdecodeCore data fuel cap
                (.dictLoop i2 (pyDictInsert acc kb v) (some (pySlice data i1 i2)))
          else
            match bdecodeCore data fuel cap (.val i1) with
            | .error e => .error e
            | .ok (v, i2, sub) =>
              bdecodeCore data fuel cap
                (.dictLoop i2 (pyDictInsert acc kb v) (pyOr sl sub))
        | _ => .error (.bencodeError "Non-bytes dict key")

/-- `_bdecode(data, i, capture_info)` with fuel ample for the inputs the
theorems run it on. -/
def bdecode (data : Bytes) (i : Nat) (cap : Bool) : DecResult :=
  bdecodeCore data (2 * data.length + 4) cap (.val i)

/-- UTF-8 decode error handling mode: `errors="ignore"` drops bad bytes,
`errors="replace"` substitutes U+FFFD. -/
inductive U8Mode where
  | ignore
  | replace
deriving DecidableEq

/-- A UTF-8 continuation byte. -/
def u8Cont (b : Nat) : Bool := 128 ≤ b && b ≤ 191

/-- Allowed first continuation byte of a three-byte sequence led by `b`
(excludes overlong forms and surrogates). -/
def u8Cont3 (b b2 : Nat) : Bool :=
  if b = 224 then 160 ≤ b2 && b2 ≤ 191
  else if b = 237 then 128 ≤ b2 && b2 ≤ 159
  else u8Cont b2

/-- Allowed first continuation byte of a four-byte sequence led by `b`. -/
def u8Cont4 (b b2 : Nat) : Bool :=
  if b = 240 then 144 ≤ b2 && b2 ≤ 191
  else if b = 244 then 128 ≤ b2 && b2 ≤ 143
  else u8Cont b2

/-- What an invalid byte turns into under each error mode. -/
def u8Err (m : U8Mode) : List Char :=
  match m with
  | .ignore => []
  | .replace => [Char.ofNat 65533]

/-- A UTF-8 decoder over byte lists (ASCII bytes decode to themselves;
multi-byte sequences are validated; invalid bytes go through `u8Err`).
On the ASCII inputs the theorems use it agrees with Python exactly.
The fuel argument is always called with at least the list length, which
every step consumes at least one byte of, so it never runs out. -/
def utf8AuxF (m : U8Mode) : Nat → Bytes → List Char
  | 0, _ => []
  | _ + 1, [] => []
  | fuel + 1, b :: bs =>
    if b < 128 then Char.ofNat b :: utf8AuxF m fuel bs
    else if 194 ≤ b && b ≤ 223 then
      match bs with
      | b2 :: rest =>
        if u8Cont b2 then
          Char.ofNat ((b - 192) * 64 + (b2 - 128)) :: utf8AuxF m fuel rest
        else u8Err m ++ utf8AuxF m fuel (b2 :: rest)
      | [] => u8Err m
    else if 224 ≤ b && b ≤ 239 then
      match bs with
      | b2 :: b3 :: rest =>
        if u8Cont3 b b2 && u8Cont b3 then
          Char.ofNat ((b - 224) * 4096 + (b2 - 128) * 64 + (b3 - 128)) ::
            utf8AuxF m fuel rest
        else u8Err m ++ utf8AuxF m fuel (b2 :: b3 :: rest)
      | _ => u8Err m
    else if 240 ≤ b && b ≤ 244 then
      match bs with
      | b2 :: b3 :: b4 :: rest =>
        if u8Cont4 b b2 && u8Cont b3 && u8Cont b4 then
          Char.ofNat ((b - 240) * 262144 + (b2 - 128) * 4096 +
            (b3 - 128) * 64 + (b4 - 128)) :: utf8AuxF m fuel rest
        else u8Err m ++ utf8AuxF m fuel (b2 :: b3 :: b4 :: rest)
      | _ => u8Err m
    else u8Err m ++ utf8AuxF m fuel bs

/-- Python `bs.decode("utf-8", errors=...)`. -/
def pyDecode (m : U8Mode) (bs : Bytes) : String :=
  String.mk (utf8AuxF m bs.length bs)

/-- UTF-8 bytes of one character. -/
def utf8EncodeChar (c : Char) : Bytes :=
  let n := c.toNat
  if n < 128 then [n]
  else if n < 2048 then [192 + n / 64, 128 + n % 64]
  else if n < 65536 then [224 + n / 4096, 128 + (n / 64) % 64, 128 + n % 64]
  else [240 + n / 262144, 128 + (n / 4096) % 64, 128 + (n / 64) % 64,
        128 + n % 64]

/-- Concatenation of a list of lists. -/
def concatAll : List (List α) → List α
  | [] => []
  | l :: ls => l ++ concatAll ls

/-- Uppercase hexadecimal digit. -/
def hexDigitUpper (n : Nat) : Char :=
  if n < 10 then Char.ofNat (48 + n) else Char.ofNat (55 + n)

/-- One byte under `urllib.parse.quote`: kept when an ASCII letter, digit,
one of `_.-~`, or listed in `safe`; otherwise percent-escaped. -/
def quoteByte (safe : Bytes) (b : Nat) : List Char :=
  if (65 ≤ b && b ≤ 90) || (97 ≤ b && b ≤ 122) || (48 ≤ b && b ≤ 57) ||
     b = 95 || b = 46 || b = 45 || b = 126 || safe.contains b
  then [Char.ofNat b]
  else [Char.ofNat 37, hexDigitUpper (b / 16), hexDigitUpper (b % 16)]

/-- Python `urllib.parse.quote(s, safe)`: the string's UTF-8 bytes, each
kept or percent-escaped. The source calls it with `safe=':'` for the `xt`
value and the default `safe='/'` everywhere else. -/
def pyQuote (safe : Bytes) (s : String) : String :=
  String.mk (concatAll ((concatAll (s.data.map utf8EncodeChar)).map
    (quoteByte safe)))

/-- The byte string `b"name"`. -/
def nameKey : Bytes := [110, 97, 109, 101]

/-- The byte string `b"meta version"`. -/
def metaVersionKey : Bytes :=
  [109, 101, 116, 97, 32, 118, 101, 114, 115, 105, 111, 110]

/-- The byte string `b"announce"`. -/
def announceKey : Bytes := [97, 110, 110, 111, 117, 110, 99, 101]

/-- The byte string `b"announce-list"`. -/
def announceListKey : Bytes :=
  [97, 110, 110, 111, 117, 110, 99, 101, 45, 108, 105, 115, 116]

/-- The byte string `b"length"`. -/
def lengthKey : Bytes := [108, 101, 110, 103, 116, 104]

/-- The byte string `b"files"`. -/
def filesKey : Bytes := [102, 105, 108, 101, 115]

/-- The byte string `b"path"`. -/
def pathKey : Bytes := [112, 97, 116, 104]

/-- The byte string `b"file tree"`. -/
def fileTreeKey : Bytes := [102, 105, 108, 101, 32, 116, 114, 101, 101]

/-- Python `a or b` for a string `a` that may be `None` or empty. -/
def pyOrStr (a : Option String) (b : String) : String :=
  match a with
  | some s => if s = "" then b else s
  | none => b

/-- `decode_torrent_and_infohash` of the source on already-read bytes.
`torrent_path.read_bytes()` is `raw` and `torrent_path.stem` is `stem`;
the two hash functions stand for `hashlib.sha1(..).hexdigest()` and
`hashlib.sha256(..).hexdigest()`, which live outside the repository.
Returns `(decoded dict, infohash tag or none, display name)`. -/
def decode_torrent_and_infohash (sha1hex sha256hex : Bytes → String)
    (raw : Bytes) (stem : String) :
    Except PyErr (Bencode × Option String × String) :=
  match bdecode raw 0 true with
  | .error e => .error e
  | .ok (val, _, info_slice) =>
    match val with
    | .bdict d =>
      let info := pyGet d infoKey
      let name : Option String :=
        match info with
        | some (.bdict idict) =>
          match pyGet idict nameKey with
          | some (.bstr nm) => some (pyDecode .replace nm)
          | _ => none
        | _ => none
      match info_slice with
      | none => .ok (.bdict d, none, pyOrStr name stem)
      | some sl =>
        let isV2 : Bool :=
          match info with
          | some (.bdict idict) =>
            match pyGet idict metaVersionKey with
            | some (.int n) => n = 2
            | _ => false
          | _ => false
        let ih :=
          if isV2 then "btmh:1220" ++ sha256hex sl
          else "btih:" ++ sha1hex sl
        .ok (.bdict d, some ih, pyOrStr name stem)
    | _ => .error (.bencodeError "Top-level bencode is not a dict")

/-- Claim-side restatement of the infohash rule (it follows the spec's
words, to be compared with the embedded source): modern exactly when the
decoded `info` value is a dictionary whose `meta version` entry is the
integer 2, giving the tagged multihash identifier built from SHA-256 of
the span; otherwise legacy SHA-1 of the span; absent when no span. -/
def specIsModern (d : List (Bytes × Bencode)) : Bool :=
  match pyGet d infoKey with
  | some (.bdict idict) =>
    match pyGet idict metaVersionKey with
    | some (.int n) => n = 2
    | _ => false
  | _ => false

/-- Claim-side infohash rule over `specIsModern`: see its doc comment. -/
def specInfohash (sha1hex sha256hex : Bytes → String)
    (d : List (Bytes × Bencode)) (osp : Option Bytes) : Option String :=
  match osp with
  | none => none
  | some sl =>
    some (if specIsModern d then "btmh:" ++ ("1220" ++ sha256hex sl)
          else "btih:" ++ sha1hex sl)

/-- The needle list is an initial run of the hay list. -/
def charsMatch : List Char → List Char → Bool
  | [], _ => true
  | _ :: _, [] => false
  | a :: as, b :: bs => a = b && charsMatch as bs

/-- The needle list occurs contiguously somewhere in the hay list. -/
def charsContain (n : List Char) : List Char → Bool
  | [] => n.isEmpty
  | b :: bs => charsMatch n (b :: bs) || charsContain n bs

/-- Python `s.startswith(pre)`, over the character lists. -/
def pyStartsWith (s pre : String) : Bool :=
  charsMatch pre.data s.data

/-- The first `n` characters of `s` removed (ASCII `s.split(':', 1)[1]`
after a 5-character tag, at the call sites below). -/
def pyStrDrop (s : String) (n : Nat) : String :=
  String.mk (s.data.drop n)

/-- Python `s.split(sep)` on characters: groups between separators,
empty groups preserved. -/
def splitChar (sep : Char) : List Char → List (List Char)
  | [] => [[]]
  | c :: rest =>
    if c = sep then [] :: splitChar sep rest
    else
      match splitChar sep rest with
      | [] => [[c]]
      | g :: gs => (c :: g) :: gs

/-- Python `"/".join(segs)`. -/
def joinSlash : List String → String
  | [] => ""
  | [s] => s
  | s :: rest => s ++ "/" ++ joinSlash rest

/-- Python `"&".join(params)`. -/
def joinAmp : List String → String
  | [] => ""
  | [p] => p
  | p :: rest => p ++ "&" ++ joinAmp rest

/-- The flattening loop over `announce-list`: byte-string members of list
items, then bare byte-string items, in encounter order. -/
def flattenTrackers (items : List Bencode) : List Bytes :=
  concatAll (items.map fun item =>
    match item with
    | .blist xs =>
      xs.filterMap fun x =>
        match x with
        | .bstr b => some b
        | _ => none
    | .bstr b => [b]
    | _ => [])

/-- The dedup loop of `magnet_from_info`: decode each tracker, emit a
`tr=` parameter when the text is nonempty and not yet in `seen`. The
`seen` set starts empty at the call site, so nothing already emitted from
`announce` is in it. -/
def trParams : List Bytes → List String → List String
  | [], _ => []
  | t :: rest, seen =>
    let s := pyDecode .ignore t
    if s ≠ "" ∧ ¬ s ∈ seen then
      ("tr=" ++ pyQuote [47] s) :: trParams rest (s :: seen)
    else trParams rest seen

/-- `magnet_from_info` of the source: builds `magnet:?...` from the
decoded dict, the tagged infohash and the display name. -/
def magnet_from_info (torrent_dict : List (Bytes × Bencode))
    (infohash : String) (display_name : String) : Option String :=
  if infohash = "" then none
  else
    let xtOpt : Option String :=
      if pyStartsWith infohash "btih:" then
        some ("urn:btih:" ++ pyStrDrop infohash 5)
      else if pyStartsWith infohash "btmh:" then
        some ("urn:btmh:" ++ pyStrDrop infohash 5)
      else none
    match xtOpt with
    | none => none
    | some xt =>
      let params1 := ["xt=" ++ pyQuote [58] xt]
      let params2 :=
        if display_name = "" then params1
        else params1 ++ ["dn=" ++ pyQuote [47] display_name]
      let params3 :=
        match pyGet torrent_dict announceKey with
        | some (.bstr ann) =>
          params2 ++ ["tr=" ++ pyQuote [47] (pyDecode .ignore ann)]
        | _ => params2
      let params4 :=
        match pyGet torrent_dict announceListKey with
        | some (.blist items) => params3 ++ trParams (flattenTrackers items) []
        | _ => params3
      some ("magnet:?" ++ joinAmp params4)

/-- Python set insertion, on a duplicate-free list. -/
def setAdd (ns : List String) (x : String) : List String :=
  if x ∈ ns then ns else ns ++ [x]

/-- `pathlib.Path(s).name`: the last path component, with empty and `.`
components dropped (`Path(*segs)` is modelled as the `/`-join of the
segments, which agrees with pathlib on the relative segments used here). -/
def pathName (s : String) : String :=
  match (((splitChar (Char.ofNat 47) s.data).map String.mk).filter
      fun p => p ≠ "" && p ≠ ".").getLast? with
  | some p => p
  | none => ""

/-- Python `b"" in v` for a decoded bencode value `v`: substring test on a
byte string (always true for the empty pattern), membership on a list,
key membership on a dict, and a `TypeError` on an integer. -/
def pyEmptyIn : Bencode → Except PyErr Bool
  | .bstr _ => .ok true
  | .blist l =>
    .ok (l.any fun x =>
      match x with
      | .bstr b => b.isEmpty
      | _ => false)
  | .bdict d => .ok (pyHasKey d [])
  | .int _ => .error .typeError

/-- The `walk` closure of `torrent_file_list` over a `file tree` dict:
entries in insertion order; a value containing the empty key is recorded
as a leaf under its own key name, otherwise a dict value is descended
into. (The `prefix` argument of the source is computed but never read
when adding names, so it is not modelled.) -/
def walkTree : List String → List (Bytes × Bencode) → Except PyErr (List String)
  | ns, [] => .ok ns
  | ns, (k, v) :: rest =>
    match pyEmptyIn v with
    | .error e => .error e
    | .ok true => walkTree (setAdd ns (pyDecode .ignore k)) rest
    | .ok false =>
      match v with
      | .bdict d =>
        match walkTree ns d with
        | .error e => .error e
        | .ok ns2 => walkTree ns2 rest
      | _ => walkTree ns rest

/-- `torrent_file_list` of the source: the set of leaf file names from the
single-file, multi-file and v2 file-tree layouts, as a duplicate-free
list. An uncaught Python exception surfaces as an error. -/
def torrent_file_list (torrent_dict : List (Bytes × Bencode)) :
    Except PyErr (List String) :=
  match pyGet torrent_dict infoKey with
  | some (.bdict info) =>
    let ns0 : List String := []
    let ns1 :=
      if pyHasKey info lengthKey && pyHasKey info nameKey then
        match pyGet info nameKey with
        | some (.bstr nm) => setAdd ns0 (pathName (pyDecode .ignore nm))
        | _ => ns0
      else ns0
    let ns2 :=
      match pyGet info filesKey with
      | some (.blist fs) =>
        fs.foldl (fun ns f =>
          match f with
          | .bdict fd =>
            if pyHasKey fd pathKey then
              match pyGet fd pathKey with
              | some (.blist segs) =>
                let segStrs := segs.filterMap fun seg =>
                  match seg with
                  | .bstr sb => some (pyDecode .ignore sb)
                  | _ => none
                match segStrs with
                | [] => ns
                | _ =>
                  let nm := pathName (joinSlash segStrs)
                  if nm = "" then ns else setAdd ns nm
              | some (.bstr pb) =>
                let nm := pathName (pyDecode .ignore pb)
                if nm = "" then ns else setAdd ns nm
              | _ => ns
            else ns
          | _ => ns) ns1
      | _ => ns1
    match pyGet info fileTreeKey with
    | some (.bdict tree) => walkTree ns2 tree
    | _ => .ok ns2
  | _ => .ok []

/-- One torrent record as the matcher sees it: the display name (possibly
absent) and the lowercased file-name set. -/
structure TRecord where
  display_name : Option String
  files : List String
deriving DecidableEq

/-- Python `s.lower()` (ASCII range; the theorems stay within it). -/
def pyLower (s : String) : String := String.mk (s.data.map Char.toLower)

/-- Python `a in b` on strings: substring containment. -/
def strContains (needle hay : String) : Bool :=
  charsContain needle.data hay.data

/-- Tier 1 of the matcher: nonempty display name, lowercased, equal to the
lowercased directory name. -/
def tier1Match (dirName : String) (t : TRecord) : Bool :=
  let tn := pyLower (pyOrStr t.display_name "")
  tn ≠ "" && tn = dirName

/-- Tier 2: nonempty display name and substring containment in either
direction. -/
def tier2Match (dirName : String) (t : TRecord) : Bool :=
  let tn := pyLower (pyOrStr t.display_name "")
  tn ≠ "" && (strContains tn dirName || strContains dirName tn)

/-- Tier 3: the directory name occurs inside some recorded file name. -/
def tier3Match (dirName : String) (t : TRecord) : Bool :=
  t.files.any fun f => strContains dirName (pyLower f)

/-- `match_movie_to_torrent` of the source: three sequential scans of the
record list, first hit of the highest tier wins, else none. -/
def match_movie_to_torrent (movieDirName : String)
    (torrents : List TRecord) : Option TRecord :=
  let dirName := pyLower movieDirName
  match torrents.find? (tier1Match dirName) with
  | some t => some t
  | none =>
    match torrents.find? (tier2Match dirName) with
    | some t => some t
    | none => torrents.find? (tier3Match dirName)

/-- ASCII bytes of a string literal, for concrete test inputs. -/
def bOf (s : String) : Bytes := s.data.map Char.toNat

/-- The well-nested input `b"l"*n + b"e"*n` of nesting depth `n`. -/
def nestedBytes (n : Nat) : Bytes :=
  List.replicate n 108 ++ List.replicate n 101

/-- The value `nestedBytes (n+1)` decodes to: `n+1` nested lists. -/
def depthVal : Nat → Bencode
  | 0 => .blist []
  | n + 1 => .blist [depthVal n]

/-- `x` is the first member of `l` satisfying `p`. -/
def firstSat (p : α → Bool) (l : List α) (x : α) : Prop :=
  ∃ l1 l2, l = l1 ++ x :: l2 ∧ p x = true ∧ ∀ u ∈ l1, p u = false

/-- The invariant the dict loop of `_bdecode` maintains between the
accumulated dictionary and the captured slice when `capture_info` is on:
whatever `b"info"` maps to was decoded from an exact region of the raw
buffer, the current slice is exactly that region, and the decode of that
region (capture off, some fuel bounded by `F`) returns that value. -/
def InfoInv (data : Bytes) (F : Nat) (d : List (Bytes × Bencode))
    (sl : Option Bytes) : Prop :=
  ∀ vi, pyGet d infoKey = some vi →
    ∃ s e f, f ≤ F ∧ s < data.length ∧ s < e ∧
      bdecodeCore data f false (.val s) = .ok (vi, e, none) ∧
      sl = some (pySlice data s e)

/-- The offset a decoder frame is positioned at. -/
def frameIdx : DFrame → Nat
  | .val i => i
  | .listLoop i _ _ => i
  | .dictLoop i _ _ => i

/-- The slice a decoder frame has accumulated so far. -/
def frameSl : DFrame → Option Bytes
  | .val _ => none
  | .listLoop _ _ s => s
  | .dictLoop _ _ s => s

theorem pyGet_insert_self (d : List (Bytes × Bencode)) (k : Bytes) (v : Bencode) :
    pyGet (pyDictInsert d k v) k = some v := by
  induction d with
  | nil => simp [pyDictInsert, pyGet]
  | cons hd tl ih =>
    obtain ⟨k1, v1⟩ := hd
    by_cases hk : k1 = k
    · simp [pyDictInsert, pyGet, hk]
    · simp [pyDictInsert, pyGet, hk, ih]

theorem pyGet_insert_other (d : List (Bytes × Bencode)) (k k2 : Bytes)
    (v : Bencode) (h : k ≠ k2) :
    pyGet (pyDictInsert d k v) k2 = pyGet d k2 := by
  induction d with
  | nil => simp [pyDictInsert, pyGet, h]
  | cons hd tl ih =>
    obtain ⟨k1, v1⟩ := hd
    by_cases hk : k1 = k
    · subst hk
      simp [pyDictInsert, pyGet, h]
    · simp [pyDictInsert, pyGet, hk, ih]

theorem pyIndexFrom_ge (data : Bytes) (b s j : Nat)
    (h : pyIndexFrom data b s = some j) : s ≤ j := by
  unfold pyIndexFrom at h
  obtain ⟨k, _, hk⟩ := Option.map_eq_some'.mp h
  omega

theorem pySlice_ne_nil (data : Bytes) (s e : Nat)
    (hs : s < data.length) (hse : s < e) : pySlice data s e ≠ [] := by
  unfold pySlice
  intro hcon
  have h1 : (data.drop s).length = data.length - s := List.length_drop s data
  have h2 : ((data.drop s).take (e - s)).length = min (e - s) (data.drop s).length :=
    List.length_take _ _
  rw [hcon] at h2
  simp at h2
  omega

theorem val_lt_length (data : Bytes) (fuel : Nat) (cap : Bool) (i : Nat)
    (out : Bencode × Nat × Option Bytes)
    (h : bdecodeCore data fuel cap (.val i) = .ok out) : i < data.length := by
  match fuel with
  | 0 => simp [bdecodeCore] at h
  | fuel + 1 =>
    by_cases hlen : data.length ≤ i
    · simp [bdecodeCore, hlen] at h
    · omega


theorem bdecodeCore_val_end (data : Bytes) (fuel : Nat) (cap : Bool) (i : Nat)
    (hlen : data.length ≤ i) :
    bdecodeCore data (fuel + 1) cap (.val i) =
      .error (.bencodeError "Unexpected end of data") := by
  simp [bdecodeCore, hlen]

theorem bdecodeCore_val_int (data : Bytes) (fuel : Nat) (cap : Bool) (i : Nat)
    (hlen : ¬ data.length ≤ i) (hb : data.getD i 0 = 105) :
    bdecodeCore data (fuel + 1) cap (.val i) =
      (match pyIndexFrom data 101 i with
       | none => .error .valueError
       | some j =>
         match pyIntOfBytes (pySlice data (i + 1) j) with
         | none => .error .valueError
         | some n => .ok (.int n, j + 1, none)) := by
  simp only [List.getD_eq_getElem?_getD] at hb
  simp [bdecodeCore, hlen, hb]

theorem bdecodeCore_val_list (data : Bytes) (fuel : Nat) (cap : Bool) (i : Nat)
    (hlen : ¬ data.length ≤ i) (hb : data.getD i 0 = 108) :
    bdecodeCore data (fuel + 1) cap (.val i) =
      bdecodeCore data fuel cap (.listLoop (i + 1) [] none) := by
  simp only [List.getD_eq_getElem?_getD] at hb
  simp [bdecodeCore, hlen, hb]

theorem bdecodeCore_val_dict (data : Bytes) (fuel : Nat) (cap : Bool) (i : Nat)
    (hlen : ¬ data.length ≤ i) (hb : data.getD i 0 = 100) :
    bdecodeCore data (fuel + 1) cap (.val i) =
      bdecodeCore data fuel cap (.dictLoop (i + 1) [] none) := by
  simp only [List.getD_eq_getElem?_getD] at hb
  simp [bdecodeCore, hlen, hb]

theorem bdecodeCore_val_str (data : Bytes) (fuel : Nat) (cap : Bool) (i : Nat)
    (hlen : ¬ data.length ≤ i) (hb : 48 ≤ data.getD i 0 ∧ data.getD i 0 ≤ 57) :
    bdecodeCore data (fuel + 1) cap (.val i) =
      (match pyIndexFrom data 58 i with
       | none => .error .valueError
       | some j =>
         match pyIntOfBytes (pySlice data i j) with
         | none => .error .valueError
         | some len =>
           .ok (.bstr (pySlice data (j + 1) (j + 1 + len.toNat)),
                j + 1 + len.toNat, none)) := by
  have h105 : data.getD i 0 ≠ 105 := by omega
  have h108 : data.getD i 0 ≠ 108 := by omega
  have h100 : data.getD i 0 ≠ 100 := by omega
  simp only [List.getD_eq_getElem?_getD] at hb h105 h108 h100
  simp [bdecodeCore, hlen, h105, h108, h100, hb]

theorem bdecodeCore_val_bad (data : Bytes) (fuel : Nat) (cap : Bool) (i : Nat)
    (hlen : ¬ data.length ≤ i) (h105 : data.getD i 0 ≠ 105)
    (h108 : data.getD i 0 ≠ 108) (h100 : data.getD i 0 ≠ 100)
    (hdig : ¬ (48 ≤ data.getD i 0 ∧ data.getD i 0 ≤ 57)) :
    bdecodeCore data (fuel + 1) cap (.val i) =
      .error (.bencodeError "Invalid bencode prefix") := by
  simp only [List.getD_eq_getElem?_getD] at h105 h108 h100 hdig
  simp [bdecodeCore, hlen, h105, h108, h100, hdig]

theorem bdecodeCore_listLoop_end (data : Bytes) (fuel : Nat) (cap : Bool)
    (i : Nat) (acc : List Bencode) (sl : Option Bytes)
    (hg : pySlice data i (i + 1) = [101]) :
    bdecodeCore data (fuel + 1) cap (.listLoop i acc sl) =
      .ok (.blist acc, i + 1, sl) := by
  simp [bdecodeCore, hg]

theorem bdecodeCore_listLoop_step (data : Bytes) (fuel : Nat) (cap : Bool)
    (i : Nat) (acc : List Bencode) (sl : Option Bytes)
    (hg : ¬ pySlice data i (i + 1) = [101]) :
    bdecodeCore data (fuel + 1) cap (.listLoop i acc sl) =
      (match bdecodeCore data fuel cap (.val i) with
       | .error e => .error e
       | .ok (v, i2, sub) =>
         bdecodeCore data fuel cap (.listLoop i2 (acc ++ [v]) (pyOr sl sub))) := by
  simp [bdecodeCore, hg]

theorem bdecodeCore_dictLoop_end (data : Bytes) (fuel : Nat) (cap : Bool)
    (i : Nat) (acc : List (Bytes × Bencode)) (sl : Option Bytes)
    (hg : pySlice data i (i + 1) = [101]) :
    bdecodeCore data (fuel + 1) cap (.dictLoop i acc sl) =
      .ok (.bdict acc, i + 1, sl) := by
  simp [bdecodeCore, hg]

theorem bdecodeCore_dictLoop_step (data : Bytes) (fuel : Nat) (cap : Bool)
    (i : Nat) (acc : List (Bytes × Bencode)) (sl : Option Bytes)
    (hg : ¬ pySlice data i (i + 1) = [101]) :
    bdecodeCore data (fuel + 1) cap (.dictLoop i acc sl) =
      (match bdecodeCore data fuel false (.val i) with
       | .error e => .error e
       | .ok (k, i1, _) =>
         match k with
         | .bstr kb =>
           if cap ∧ kb = infoKey then
             match bdecodeCore data fuel false (.val i1) with
             | .error e => .error e
             | .ok (v, i2, _) =>
               bdecodeCore data fuel cap
                 (.dictLoop i2 (pyDictInsert acc kb v) (some (pySlice data i1 i2)))
           else
             match bdecodeCore data fuel cap (.val i1) with
             | .error e => .error e
             | .ok (v, i2, sub) =>
               bdecodeCore data fuel cap
                 (.dictLoop i2 (pyDictInsert acc kb v) (pyOr sl sub))
         | _ => .error (.bencodeError "Non-bytes dict key")) := by
  simp [bdecodeCore, hg]

theorem decode_progress (data : Bytes) :
    ∀ fuel cap fr v j sl, bdecodeCore data fuel cap fr = .ok (v, j, sl) →
      frameIdx fr < j := by
  intro fuel
  induction fuel with
  | zero => intro cap fr v j sl h; simp [bdecodeCore] at h
  | succ fuel ih =>
    intro cap fr v j sl h
    match fr with
    | .val i =>
      show i < j
      by_cases hlen : data.length ≤ i
      · rw [bdecodeCore_val_end data fuel cap i hlen] at h
        simp at h
      · by_cases h105 : data.getD i 0 = 105
        · rw [bdecodeCore_val_int data fuel cap i hlen h105] at h
          rcases hj : pyIndexFrom data 101 i with _ | j0 <;> rw [hj] at h <;> dsimp only at h
          · simp at h
          · rcases hn : pyIntOfBytes (pySlice data (i + 1) j0) with _ | n <;>
              rw [hn] at h <;> dsimp only at h
            · simp at h
            · have hge := pyIndexFrom_ge data 101 i j0 hj
              obtain ⟨-, h2, -⟩ : Bencode.int n = v ∧ j0 + 1 = j ∧ (none : Option Bytes) = sl := by
                simpa using h
              omega
        · by_cases h108 : data.getD i 0 = 108
          · rw [bdecodeCore_val_list data fuel cap i hlen h108] at h
            have := ih cap (.listLoop (i + 1) [] none) v j sl h
            simp [frameIdx] at this
            omega
          · by_cases h100 : data.getD i 0 = 100
            · rw [bdecodeCore_val_dict data fuel cap i hlen h100] at h
              have := ih cap (.dictLoop (i + 1) [] none) v j sl h
              simp [frameIdx] at this
              omega
            · by_cases hdig : 48 ≤ data.getD i 0 ∧ data.getD i 0 ≤ 57
              · rw [bdecodeCore_val_str data fuel cap i hlen hdig] at h
                rcases hj : pyIndexFrom data 58 i with _ | j0 <;> rw [hj] at h <;> dsimp only at h
                · simp at h
                · rcases hn : pyIntOfBytes (pySlice data i j0) with _ | n <;>
                    rw [hn] at h <;> dsimp only at h
                  · simp at h
                  · have hge := pyIndexFrom_ge data 58 i j0 hj
                    obtain ⟨-, h2, -⟩ :
                        Bencode.bstr (pySlice data (j0 + 1) (j0 + 1 + n.toNat)) = v ∧
                          j0 + 1 + n.toNat = j ∧ (none : Option Bytes) = sl := by
                      simpa using h
                    omega
              · rw [bdecodeCore_val_bad data fuel cap i hlen h105 h108 h100 hdig] at h
                simp at h
    | .listLoop i acc sl0 =>
      show i < j
      by_cases hg : pySlice data i (i + 1) = [101]
      · rw [bdecodeCore_listLoop_end data fuel cap i acc sl0 hg] at h
        obtain ⟨-, h2, -⟩ : Bencode.blist acc = v ∧ i + 1 = j ∧ sl0 = sl := by
          simpa using h
        omega
      · rw [bdecodeCore_listLoop_step data fuel cap i acc sl0 hg] at h
        rcases hv : bdecodeCore data fuel cap (.val i) with e | ⟨v0, i2, sub⟩ <;>
          rw [hv] at h
        · simp at h
        · have h1 := ih cap (.val i) v0 i2 sub hv
          have h2 := ih cap (.listLoop i2 (acc ++ [v0]) (pyOr sl0 sub)) v j sl h
          simp [frameIdx] at h1 h2
          omega
    | .dictLoop i acc sl0 =>
      show i < j
      by_cases hg : pySlice data i (i + 1) = [101]
      · rw [bdecodeCore_dictLoop_end data fuel cap i acc sl0 hg] at h
        obtain ⟨-, h2, -⟩ : Bencode.bdict acc = v ∧ i + 1 = j ∧ sl0 = sl := by
          simpa using h
        omega
      · rw [bdecodeCore_dictLoop_step data fuel cap i acc sl0 hg] at h
        rcases hv : bdecodeCore data fuel false (.val i) with e | ⟨k, i1, k3⟩ <;>
          rw [hv] at h
        · simp at h
        · have h1 := ih false (.val i) k i1 k3 hv
          simp [frameIdx] at h1
          match k with
          | .int _ => simp at h
          | .blist _ => simp at h
          | .bdict _ => simp at h
          | .bstr kb =>
            simp only at h
            by_cases hcap : cap ∧ kb = infoKey
            · rw [if_pos hcap] at h
              rcases hv2 : bdecodeCore data fuel false (.val i1) with e |
                  ⟨v2, i2, v3⟩ <;> rw [hv2] at h
              · simp at h
              · have h2 := ih false (.val i1) v2 i2 v3 hv2
                have h3 := ih cap
                  (.dictLoop i2 (pyDictInsert acc kb v2) (some (pySlice data i1 i2)))
                  v j sl h
                simp [frameIdx] at h2 h3
                omega
            · rw [if_neg hcap] at h
              rcases hv2 : bdecodeCore data fuel cap (.val i1) with e |
                  ⟨v2, i2, sub⟩ <;> rw [hv2] at h
              · simp at h
              · have h2 := ih cap (.val i1) v2 i2 sub hv2
                have h3 := ih cap
                  (.dictLoop i2 (pyDictInsert acc kb v2) (pyOr sl0 sub)) v j sl h
                simp [frameIdx] at h2 h3
                omega

theorem decode_nocapture (data : Bytes) :
    ∀ fuel fr v j sl, frameSl fr = none →
      bdecodeCore data fuel false fr = .ok (v, j, sl) → sl = none := by
  intro fuel
  induction fuel with
  | zero => intro fr v j sl hfs h; simp [bdecodeCore] at h
  | succ fuel ih =>
    intro fr v j sl hfs h
    cases fr with
    | val i =>
      by_cases hlen : data.length ≤ i
      · rw [bdecodeCore_val_end data fuel false i hlen] at h
        simp at h
      · by_cases h105 : data.getD i 0 = 105
        · rw [bdecodeCore_val_int data fuel false i hlen h105] at h
          rcases hj : pyIndexFrom data 101 i with _ | j0 <;> rw [hj] at h <;>
            dsimp only at h
          · simp at h
          · rcases hn : pyIntOfBytes (pySlice data (i + 1) j0) with _ | n <;>
              rw [hn] at h <;> dsimp only at h
            · simp at h
            · obtain ⟨-, -, h3⟩ :
                  Bencode.int n = v ∧ j0 + 1 = j ∧ (none : Option Bytes) = sl := by
                simpa using h
              exact h3.symm
        · by_cases h108 : data.getD i 0 = 108
          · rw [bdecodeCore_val_list data fuel false i hlen h108] at h
            exact ih (.listLoop (i + 1) [] none) v j sl rfl h
          · by_cases h100 : data.getD i 0 = 100
            · rw [bdecodeCore_val_dict data fuel false i hlen h100] at h
              exact ih (.dictLoop (i + 1) [] none) v j sl rfl h
            · by_cases hdig : 48 ≤ data.getD i 0 ∧ data.getD i 0 ≤ 57
              · rw [bdecodeCore_val_str data fuel false i hlen hdig] at h
                rcases hj : pyIndexFrom data 58 i with _ | j0 <;> rw [hj] at h <;>
                  dsimp only at h
                · simp at h
                · rcases hn : pyIntOfBytes (pySlice data i j0) with _ | n <;>
                    rw [hn] at h <;> dsimp only at h
                  · simp at h
                  · obtain ⟨-, -, h3⟩ :
                        Bencode.bstr (pySlice data (j0 + 1) (j0 + 1 + n.toNat)) = v ∧
                          j0 + 1 + n.toNat = j ∧ (none : Option Bytes) = sl := by
                      simpa using h
                    exact h3.symm
              · rw [bdecodeCore_val_bad data fuel false i hlen h105 h108 h100 hdig] at h
                simp at h
    | listLoop i acc sl0 =>
      have hsl0 : sl0 = none := hfs
      subst hsl0
      by_cases hg : pySlice data i (i + 1) = [101]
      · rw [bdecodeCore_listLoop_end data fuel false i acc none hg] at h
        obtain ⟨-, -, h3⟩ : Bencode.blist acc = v ∧ i + 1 = j ∧
            (none : Option Bytes) = sl := by simpa using h
        exact h3.symm
      · rw [bdecodeCore_listLoop_step data fuel false i acc none hg] at h
        rcases hv : bdecodeCore data fuel false (.val i) with e | ⟨v0, i2, sub⟩ <;>
          rw [hv] at h <;> dsimp only at h
        · simp at h
        · have hsub : sub = none := ih (.val i) v0 i2 sub rfl hv
          subst hsub
          exact ih (.listLoop i2 (acc ++ [v0]) (pyOr none none)) v j sl rfl h
    | dictLoop i acc sl0 =>
      have hsl0 : sl0 = none := hfs
      subst hsl0
      by_cases hg : pySlice data i (i + 1) = [101]
      · rw [bdecodeCore_dictLoop_end data fuel false i acc none hg] at h
        obtain ⟨-, -, h3⟩ : Bencode.bdict acc = v ∧ i + 1 = j ∧
            (none : Option Bytes) = sl := by simpa using h
        exact h3.symm
      · rw [bdecodeCore_dictLoop_step data fuel false i acc none hg] at h
        rcases hv : bdecodeCore data fuel false (.val i) with e | ⟨k, i1, k3⟩ <;>
          rw [hv] at h <;> dsimp only at h
        · simp at h
        · match k with
          | .int _ => simp at h
          | .blist _ => simp at h
          | .bdict _ => simp at h
          | .bstr kb =>
            dsimp only at h
            rw [if_neg (by simp)] at h
            rcases hv2 : bdecodeCore data fuel false (.val i1) with e |
                ⟨v2, i2, sub⟩ <;> rw [hv2] at h <;> dsimp only at h
            · simp at h
            · have hsub : sub = none := ih (.val i1) v2 i2 sub rfl hv2
              subst hsub
              exact ih (.dictLoop i2 (pyDictInsert acc kb v2) (pyOr none none))
                v j sl rfl h

theorem decode_fuel_mono (data : Bytes) :
    ∀ f cap fr r, bdecodeCore data f cap fr = r →
      r ≠ .error .stackOverflow → ∀ f2, f ≤ f2 →
        bdecodeCore data f2 cap fr = r := by
  intro f
  induction f with
  | zero =>
    intro cap fr r h hso f2 hf2
    exact absurd h.symm hso
  | succ f ih =>
    intro cap fr r h hso f2 hf2
    cases f2 with
    | zero => omega
    | succ f3 =>
      have hf : f ≤ f3 := by omega
      cases fr with
      | val i =>
        by_cases hlen : data.length ≤ i
        · rw [bdecodeCore_val_end data f cap i hlen] at h
          rw [bdecodeCore_val_end data f3 cap i hlen]
          exact h
        · by_cases h105 : data.getD i 0 = 105
          · rw [bdecodeCore_val_int data f cap i hlen h105] at h
            rw [bdecodeCore_val_int data f3 cap i hlen h105]
            exact h
          · by_cases h108 : data.getD i 0 = 108
            · rw [bdecodeCore_val_list data f cap i hlen h108] at h
              rw [bdecodeCore_val_list data f3 cap i hlen h108]
              exact ih cap (.listLoop (i + 1) [] none) r h hso f3 hf
            · by_cases h100 : data.getD i 0 = 100
              · rw [bdecodeCore_val_dict data f cap i hlen h100] at h
                rw [bdecodeCore_val_dict data f3 cap i hlen h100]
                exact ih cap (.dictLoop (i + 1) [] none) r h hso f3 hf
              · by_cases hdig : 48 ≤ data.getD i 0 ∧ data.getD i 0 ≤ 57
                · rw [bdecodeCore_val_str data f cap i hlen hdig] at h
                  rw [bdecodeCore_val_str data f3 cap i hlen hdig]
                  exact h
                · rw [bdecodeCore_val_bad data f cap i hlen h105 h108 h100 hdig] at h
                  rw [bdecodeCore_val_bad data f3 cap i hlen h105 h108 h100 hdig]
                  exact h
      | listLoop i acc sl0 =>
        by_cases hg : pySlice data i (i + 1) = [101]
        · rw [bdecodeCore_listLoop_end data f cap i acc sl0 hg] at h
          rw [bdecodeCore_listLoop_end data f3 cap i acc sl0 hg]
          exact h
        · rw [bdecodeCore_listLoop_step data f cap i acc sl0 hg] at h
          rw [bdecodeCore_listLoop_step data f3 cap i acc sl0 hg]
          rcases hv : bdecodeCore data f cap (.val i) with e | ⟨v0, i2, sub⟩ <;>
            rw [hv] at h <;> dsimp only at h
          · subst h
            have hv3 := ih cap (.val i) (.error e) hv hso f3 hf
            rw [hv3]
          · have hv3 := ih cap (.val i) (.ok (v0, i2, sub)) hv (by simp) f3 hf
            rw [hv3]
            dsimp only
            exact ih cap (.listLoop i2 (acc ++ [v0]) (pyOr sl0 sub)) r h hso f3 hf
      | dictLoop i acc sl0 =>
        by_cases hg : pySlice data i (i + 1) = [101]
        · rw [bdecodeCore_dictLoop_end data f cap i acc sl0 hg] at h
          rw [bdecodeCore_dictLoop_end data f3 cap i acc sl0 hg]
          exact h
        · rw [bdecodeCore_dictLoop_step data f cap i acc sl0 hg] at h
          rw [bdecodeCore_dictLoop_step data f3 cap i acc sl0 hg]
          rcases hv : bdecodeCore data f false (.val i) with e | ⟨k, i1, k3⟩ <;>
            rw [hv] at h <;> dsimp only at h
          · subst h
            have hv3 := ih false (.val i) (.error e) hv hso f3 hf
            rw [hv3]
          · have hv3 := ih false (.val i) (.ok (k, i1, k3)) hv (by simp) f3 hf
            rw [hv3]
            dsimp only
            match k with
            | .int _ => exact h
            | .blist _ => exact h
            | .bdict _ => exact h
            | .bstr kb =>
              dsimp only at h ⊢
              by_cases hcap : cap ∧ kb = infoKey
              · rw [if_pos hcap] at h ⊢
                rcases hv2 : bdecodeCore data f false (.val i1) with e |
                    ⟨v2, i2, v3⟩ <;> rw [hv2] at h <;> dsimp only at h
                · subst h
                  have hv4 := ih false (.val i1) (.error e) hv2 hso f3 hf
                  rw [hv4]
                · have hv4 := ih false (.val i1) (.ok (v2, i2, v3)) hv2 (by simp) f3 hf
                  rw [hv4]
                  dsimp only
                  exact ih cap
                    (.dictLoop i2 (pyDictInsert acc kb v2) (some (pySlice data i1 i2)))
                    r h hso f3 hf
              · rw [if_neg hcap] at h ⊢
                rcases hv2 : bdecodeCore data f cap (.val i1) with e |
                    ⟨v2, i2, sub⟩ <;> rw [hv2] at h <;> dsimp only at h
                · subst h
                  have hv4 := ih cap (.val i1) (.error e) hv2 hso f3 hf
                  rw [hv4]
                · have hv4 := ih cap (.val i1) (.ok (v2, i2, sub)) hv2 (by simp) f3 hf
                  rw [hv4]
                  dsimp only
                  exact ih cap
                    (.dictLoop i2 (pyDictInsert acc kb v2) (pyOr sl0 sub))
                    r h hso f3 hf

theorem listLoop_shape (data : Bytes) :
    ∀ fuel cap i acc sl0 v j sl,
      bdecodeCore data fuel cap (.listLoop i acc sl0) = .ok (v, j, sl) →
        ∃ l, v = .blist l := by
  intro fuel
  induction fuel with
  | zero => intro cap i acc sl0 v j sl h; simp [bdecodeCore] at h
  | succ fuel ih =>
    intro cap i acc sl0 v j sl h
    by_cases hg : pySlice data i (i + 1) = [101]
    · rw [bdecodeCore_listLoop_end data fuel cap i acc sl0 hg] at h
      obtain ⟨h1, -, -⟩ : Bencode.blist acc = v ∧ i + 1 = j ∧ sl0 = sl := by
        simpa using h
      exact ⟨acc, h1.symm⟩
    · rw [bdecodeCore_listLoop_step data fuel cap i acc sl0 hg] at h
      rcases hv : bdecodeCore data fuel cap (.val i) with e | ⟨v0, i2, sub⟩ <;>
        rw [hv] at h <;> dsimp only at h
      · simp at h
      · exact ih cap i2 (acc ++ [v0]) (pyOr sl0 sub) v j sl h

theorem dictLoop_shape (data : Bytes) :
    ∀ fuel cap i acc sl0 v j sl,
      bdecodeCore data fuel cap (.dictLoop i acc sl0) = .ok (v, j, sl) →
        ∃ d0, v = .bdict d0 := by
  intro fuel
  induction fuel with
  | zero => intro cap i acc sl0 v j sl h; simp [bdecodeCore] at h
  | succ fuel ih =>
    intro cap i acc sl0 v j sl h
    by_cases hg : pySlice data i (i + 1) = [101]
    · rw [bdecodeCore_dictLoop_end data fuel cap i acc sl0 hg] at h
      obtain ⟨h1, -, -⟩ : Bencode.bdict acc = v ∧ i + 1 = j ∧ sl0 = sl := by
        simpa using h
      exact ⟨acc, h1.symm⟩
    · rw [bdecodeCore_dictLoop_step data fuel cap i acc sl0 hg] at h
      rcases hv : bdecodeCore data fuel false (.val i) with e | ⟨k, i1, k3⟩ <;>
        rw [hv] at h <;> dsimp only at h
      · simp at h
      · match k with
        | .int _ => simp at h
        | .blist _ => simp at h
        | .bdict _ => simp at h
        | .bstr kb =>
          dsimp only at h
          by_cases hcap : cap ∧ kb = infoKey
          · rw [if_pos hcap] at h
            rcases hv2 : bdecodeCore data fuel false (.val i1) with e |
                ⟨v2, i2, v3⟩ <;> rw [hv2] at h <;> dsimp only at h
            · simp at h
            · exact ih cap i2 (pyDictInsert acc kb v2)
                (some (pySlice data i1 i2)) v j sl h
          · rw [if_neg hcap] at h
            rcases hv2 : bdecodeCore data fuel cap (.val i1) with e |
                ⟨v2, i2, sub⟩ <;> rw [hv2] at h <;> dsimp only at h
            · simp at h
            · exact ih cap i2 (pyDictInsert acc kb v2) (pyOr sl0 sub) v j sl h

theorem val_dict_inversion (data : Bytes) (fuel : Nat) (cap : Bool) (i : Nat)
    (ds : List (Bytes × Bencode)) (n : Nat) (osp : Option Bytes)
    (h : bdecodeCore data (fuel + 1) cap (.val i) = .ok (.bdict ds, n, osp)) :
    data.getD i 0 = 100 ∧
      bdecodeCore data fuel cap (.dictLoop (i + 1) [] none) =
        .ok (.bdict ds, n, osp) := by
  by_cases hlen : data.length ≤ i
  · rw [bdecodeCore_val_end data fuel cap i hlen] at h
    simp at h
  · by_cases h105 : data.getD i 0 = 105
    · rw [bdecodeCore_val_int data fuel cap i hlen h105] at h
      rcases hj : pyIndexFrom data 101 i with _ | j0 <;> rw [hj] at h <;>
        dsimp only at h
      · simp at h
      · rcases hn : pyIntOfBytes (pySlice data (i + 1) j0) with _ | m <;>
          rw [hn] at h <;> dsimp only at h
        · simp at h
        · simp at h
    · by_cases h108 : data.getD i 0 = 108
      · rw [bdecodeCore_val_list data fuel cap i hlen h108] at h
        obtain ⟨l, hl⟩ := listLoop_shape data fuel cap (i + 1) [] none _ n osp h
        simp at hl
      · by_cases h100 : data.getD i 0 = 100
        · rw [bdecodeCore_val_dict data fuel cap i hlen h100] at h
          exact ⟨h100, h⟩
        · by_cases hdig : 48 ≤ data.getD i 0 ∧ data.getD i 0 ≤ 57
          · rw [bdecodeCore_val_str data fuel cap i hlen hdig] at h
            rcases hj : pyIndexFrom data 58 i with _ | j0 <;> rw [hj] at h <;>
              dsimp only at h
            · simp at h
            · rcases hn : pyIntOfBytes (pySlice data i j0) with _ | m <;>
                rw [hn] at h <;> dsimp only at h
              · simp at h
              · simp at h
          · rw [bdecodeCore_val_bad data fuel cap i hlen h105 h108 h100 hdig] at h
            simp at h

theorem InfoInv_mono (data : Bytes) (F F2 : Nat) (d : List (Bytes × Bencode))
    (sl : Option Bytes) (hF : F ≤ F2) (h : InfoInv data F d sl) :
    InfoInv data F2 d sl := by
  intro vi hvi
  obtain ⟨s, e, f, hf, hs, hse, hdec, hsl⟩ := h vi hvi
  exact ⟨s, e, f, le_trans hf hF, hs, hse, hdec, hsl⟩

theorem dictLoop_invariant (data : Bytes) :
    ∀ fuel F i acc sl w j osp, fuel ≤ F →
      bdecodeCore data fuel true (.dictLoop i acc sl) = .ok (w, j, osp) →
      InfoInv data F acc sl →
      ∃ d2, w = .bdict d2 ∧ InfoInv data F d2 osp := by
  intro fuel
  induction fuel with
  | zero => intro F i acc sl w j osp hfF h hinv; simp [bdecodeCore] at h
  | succ fuel ih =>
    intro F i acc sl w j osp hfF h hinv
    by_cases hg : pySlice data i (i + 1) = [101]
    · rw [bdecodeCore_dictLoop_end data fuel true i acc sl hg] at h
      obtain ⟨h1, -, h3⟩ : Bencode.bdict acc = w ∧ i + 1 = j ∧ sl = osp := by
        simpa using h
      exact ⟨acc, h1.symm, h3 ▸ hinv⟩
    · rw [bdecodeCore_dictLoop_step data fuel true i acc sl hg] at h
      rcases hv : bdecodeCore data fuel false (.val i) with e | ⟨k, i1, k3⟩ <;>
        rw [hv] at h <;> dsimp only at h
      · simp at h
      · match k with
        | .int _ => simp at h
        | .blist _ => simp at h
        | .bdict _ => simp at h
        | .bstr kb =>
          dsimp only at h
          by_cases hkb : kb = infoKey
          · rw [if_pos ⟨rfl, hkb⟩] at h
            subst hkb
            rcases hv2 : bdecodeCore data fuel false (.val i1) with e |
                ⟨v2, i2, v3⟩ <;> rw [hv2] at h <;> dsimp only at h
            · simp at h
            · have hv3 : v3 = none :=
                decode_nocapture data fuel (.val i1) v2 i2 v3 rfl hv2
              subst hv3
              have hprog : i1 < i2 := decode_progress data fuel false (.val i1) v2 i2 none hv2
              have hlen1 : i1 < data.length :=
                val_lt_length data fuel false i1 (v2, i2, none) hv2
              have hinv2 : InfoInv data F (pyDictInsert acc infoKey v2)
                  (some (pySlice data i1 i2)) := by
                intro vi hvi
                rw [pyGet_insert_self] at hvi
                obtain rfl : v2 = vi := by simpa using hvi
                exact ⟨i1, i2, fuel, by omega, hlen1, hprog, hv2, rfl⟩
              exact ih F i2 (pyDictInsert acc infoKey v2)
                (some (pySlice data i1 i2)) w j osp (by omega) h hinv2
          · rw [if_neg (fun hc => hkb hc.2)] at h
            rcases hv2 : bdecodeCore data fuel true (.val i1) with e |
                ⟨v2, i2, sub⟩ <;> rw [hv2] at h <;> dsimp only at h
            · simp at h
            · have hinv2 : InfoInv data F (pyDictInsert acc kb v2)
                  (pyOr sl sub) := by
                intro vi hvi
                rw [pyGet_insert_other acc kb infoKey v2 hkb] at hvi
                obtain ⟨s, e, f, hf, hs, hse, hdec, hsl⟩ := hinv vi hvi
                have hne : pySlice data s e ≠ [] := pySlice_ne_nil data s e hs hse
                refine ⟨s, e, f, hf, hs, hse, hdec, ?_⟩
                rw [hsl]
                simp [pyOr, hne]
              exact ih F i2 (pyDictInsert acc kb v2) (pyOr sl sub) w j osp
                (by omega) h hinv2

/-- C2: for every input buffer whose top-level value decodes to a
dictionary holding the key `info`, the span captured by decode with
capture enabled is present and equals exactly the contiguous original
bytes `[s, e)` of the encoded form of the value stored under `info` —
the same byte region a decode of the info value starting at `s`
consumes — and not any re-encoding of the decoded tree. -/
theorem claim_C2_info_span_exact (data : Bytes) (ds : List (Bytes × Bencode))
    (n : Nat) (osp : Option Bytes) (vi : Bencode)
    (hdec : bdecode data 0 true = .ok (.bdict ds, n, osp))
    (hinfo : pyGet ds infoKey = some vi) :
    ∃ s e, s < e ∧ osp = some (pySlice data s e) ∧
      bdecode data s false = .ok (vi, e, none) := by
  unfold bdecode at hdec ⊢
  have hB : 2 * data.length + 4 = (2 * data.length + 3) + 1 := rfl
  rw [hB] at hdec
  obtain ⟨-, hloop⟩ :=
    val_dict_inversion data (2 * data.length + 3) true 0 ds n osp hdec
  have hinv0 : InfoInv data (2 * data.length + 3) [] none := by
    intro vi0 hv0
    simp [pyGet] at hv0
  obtain ⟨d2, hw, hinv⟩ :=
    dictLoop_invariant data (2 * data.length + 3) (2 * data.length + 3)
      (0 + 1) [] none (.bdict ds) n osp (le_refl _) hloop hinv0
  obtain rfl : ds = d2 := by
    cases hw
    rfl
  obtain ⟨s, e, f, hf, hs, hse, hdecv, hsl⟩ := hinv vi hinfo
  refine ⟨s, e, hse, hsl, ?_⟩
  exact decode_fuel_mono data f false (.val s) _ hdecv (by simp)
    (2 * data.length + 4) (by omega)

/-- Witness for C2 at the concrete torrent `d4:info3:abce`: the captured
span is the raw bytes `3:abc` at offsets 7 to 12, the exact encoded form
of the value under `info`. -/
theorem claim_C2_witness :
    ∃ s e, s < e ∧
      (some (bOf "3:abc") : Option Bytes) =
        some (pySlice (bOf "d4:info3:abce") s e) ∧
      bdecode (bOf "d4:info3:abce") s false = .ok (.bstr (bOf "abc"), e, none) := by
  exact claim_C2_info_span_exact (bOf "d4:info3:abce")
    [(infoKey, .bstr (bOf "abc"))] 13 (some (bOf "3:abc")) (.bstr (bOf "abc"))
    rfl rfl

theorem btmh_assoc (x : String) :
    "btmh:" ++ ("1220" ++ x) = "btmh:1220" ++ x := by
  rw [← String.append_assoc]
  rfl

/-- C1: whenever the raw buffer decodes (with capture) to a top-level
dictionary, the infohash component of `decode_torrent_and_infohash` is
exactly the spec rule `specInfohash`: absent when no info span was
captured (no fallback hashing of the whole file), the modern
`btmh:`-tagged `"1220" ++ SHA-256 hex` of the span exactly when the
decoded `info` value is a dictionary whose `meta version` entry is the
integer 2, and the legacy `btih:`-tagged SHA-1 hex of the span
otherwise. Quantified over the two hex-digest functions, which stand for
`hashlib.sha1`/`hashlib.sha256`. -/
theorem claim_C1_infohash_rule (sha1hex sha256hex : Bytes → String)
    (raw : Bytes) (stem : String) (ds : List (Bytes × Bencode)) (n : Nat)
    (osp : Option Bytes)
    (h : bdecode raw 0 true = .ok (.bdict ds, n, osp)) :
    ∃ nm, decode_torrent_and_infohash sha1hex sha256hex raw stem =
      .ok (.bdict ds, specInfohash sha1hex sha256hex ds osp, nm) := by
  unfold decode_torrent_and_infohash
  rw [h]
  dsimp only
  cases osp with
  | none => exact ⟨_, rfl⟩
  | some sl =>
    have hspec : specInfohash sha1hex sha256hex ds (some sl) =
        some (if specIsModern ds then "btmh:1220" ++ sha256hex sl
              else "btih:" ++ sha1hex sl) := by
      simp only [specInfohash]
      rw [btmh_assoc (sha256hex sl)]
    rw [hspec]
    exact ⟨_, rfl⟩

/-- Witness for C1 at a concrete v2-style torrent
`d4:infod12:meta versioni2eee`: the `meta version = 2` info dictionary
is classified modern and the identifier is the `btmh:`-tagged
`"1220" ++ SHA-256` of the captured span. -/
theorem claim_C1_witness :
    ∃ nm, decode_torrent_and_infohash (fun _ => "S1") (fun _ => "S2")
      (bOf "d4:infod12:meta versioni2eee") "fallback" =
      .ok (.bdict [(infoKey, .bdict [(metaVersionKey, .int 2)])],
        specInfohash (fun _ => "S1") (fun _ => "S2")
          [(infoKey, .bdict [(metaVersionKey, .int 2)])]
          (some (bOf "d12:meta versioni2ee")), nm) := by
  exact claim_C1_infohash_rule (fun _ => "S1") (fun _ => "S2")
    (bOf "d4:infod12:meta versioni2eee") "fallback"
    [(infoKey, .bdict [(metaVersionKey, .int 2)])] 28
    (some (bOf "d12:meta versioni2ee")) rfl

/-- C3: evaluation at the failing input `5:abcd` (declares length 5,
supplies 4 bytes): the decoder silently returns the short string
`abcd` with next index 7 (one past the buffer) and raises nothing —
Python slicing truncates — where the spec requires a
`TruncatedError`-class failure. -/
theorem claim_C3_truncated_eval :
    bdecode (bOf "5:abcd") 0 false = .ok (.bstr (bOf "abcd"), 7, none) := rfl

theorem pyFindIdx_append_last (b : Nat) (bs : Bytes) (h : ¬ b ∈ bs) :
    pyFindIdx b (bs ++ [b]) = some bs.length := by
  induction bs with
  | nil => simp [pyFindIdx]
  | cons c rest ih =>
    have hc : c ≠ b := by
      intro hcb
      exact h (by simp [hcb])
    have hrest : ¬ b ∈ rest := by
      intro hm
      exact h (by simp [hm])
    simp [pyFindIdx, hc, ih hrest]

/-- C6 counterexample: `i007e` (leading zeros) decodes to the integer 7
instead of being rejected, and the malformed `iabce` raises the
unclassified `ValueError` of Python's `int()`, not a
`FormatError`-class `BencodeError`. -/
theorem claim_C6_counterexample :
    bdecode (bOf "i007e") 0 false = .ok (.int 7, 5, none) ∧
      bdecode (bOf "iabce") 0 false = .error .valueError :=
  ⟨rfl, rfl⟩

/-- C6 amended: integer items `i<body>e` are parsed with Python `int()`
semantics: digit bodies with an optional sign and arbitrary leading
zeros are accepted, and a body `int()` cannot parse fails with the
unclassified `ValueError`, not a `BencodeError`. -/
theorem claim_C6_amended (bs : Bytes) (cap : Bool) (h : ¬ 101 ∈ bs) :
    bdecode (105 :: bs ++ [101]) 0 cap =
      (match pyIntOfBytes bs with
       | some n => .ok (.int n, bs.length + 2, none)
       | none => .error .valueError) := by
  unfold bdecode
  have hB : 2 * (105 :: bs ++ [101] : Bytes).length + 4 =
      (2 * (105 :: bs ++ [101] : Bytes).length + 3) + 1 := rfl
  rw [hB]
  have hlen : ¬ (105 :: bs ++ [101] : Bytes).length ≤ 0 := by simp
  have hb : (105 :: bs ++ [101] : Bytes).getD 0 0 = 105 := rfl
  rw [bdecodeCore_val_int (105 :: bs ++ [101]) _ cap 0 hlen hb]
  have hidx : pyIndexFrom (105 :: bs ++ [101]) 101 0 = some (bs.length + 1) := by
    simp [pyIndexFrom, pyFindIdx, pyFindIdx_append_last 101 bs h]
  rw [hidx]
  dsimp only
  have hslice : pySlice (105 :: bs ++ [101]) (0 + 1) (bs.length + 1) = bs := by
    simp [pySlice]
  rw [hslice]
  rcases hn : pyIntOfBytes bs with _ | n <;> rfl

/-- Witness for C6 at `i007e`: leading zeros accepted, value 7. -/
theorem claim_C6_witness :
    bdecode (105 :: [48, 48, 55] ++ [101]) 0 false = .ok (.int 7, 5, none) := by
  have h := claim_C6_amended [48, 48, 55] false (by decide)
  rw [h]
  rfl

theorem nestedBytes_length (n : Nat) : (nestedBytes n).length = 2 * n := by
  simp [nestedBytes]
  omega

theorem nestedBytes_getD_l (N j : Nat) (h : j < N) :
    (nestedBytes N).getD j 0 = 108 := by
  rw [List.getD_eq_getElem?_getD, nestedBytes, List.getElem?_append]
  simp [List.getElem?_replicate, h]

theorem nestedBytes_getD_e (N j : Nat) (h1 : N ≤ j) (h2 : j < 2 * N) :
    (nestedBytes N).getD j 0 = 101 := by
  rw [List.getD_eq_getElem?_getD, nestedBytes, List.getElem?_append,
    List.length_replicate]
  rw [if_neg (show ¬ j < N by omega), List.getElem?_replicate,
    if_pos (show j - N < N by omega)]
  rfl

theorem pySlice_singleton (data : Bytes) (i : Nat) (h : i < data.length) :
    pySlice data i (i + 1) = [data.getD i 0] := by
  unfold pySlice
  rw [show i + 1 - i = 1 by omega, List.drop_eq_getElem_cons h]
  simp only [List.take_succ_cons, List.take_zero]
  rw [List.getD_eq_getElem?_getD, List.getElem?_eq_getElem h]
  rfl

theorem nested_decode_aux (N : Nat) :
    ∀ k f cap, k < N → 2 * k + 3 ≤ f →
      bdecodeCore (nestedBytes N) f cap (.val (N - (k + 1))) =
        .ok (depthVal k, N + k + 1, none) := by
  intro k
  induction k with
  | zero =>
    intro f cap hk hf
    obtain ⟨f1, rfl⟩ : ∃ f1, f = f1 + 1 := ⟨f - 1, by omega⟩
    have hlen : ¬ (nestedBytes N).length ≤ N - 1 := by
      rw [nestedBytes_length]
      omega
    have hb : (nestedBytes N).getD (N - 1) 0 = 108 :=
      nestedBytes_getD_l N (N - 1) (by omega)
    rw [bdecodeCore_val_list (nestedBytes N) f1 cap (N - 1) hlen hb]
    have hN : N - 1 + 1 = N := by omega
    rw [hN]
    obtain ⟨f2, rfl⟩ : ∃ f2, f1 = f2 + 1 := ⟨f1 - 1, by omega⟩
    have hg : pySlice (nestedBytes N) N (N + 1) = [101] := by
      rw [pySlice_singleton (nestedBytes N) N (by rw [nestedBytes_length]; omega)]
      rw [nestedBytes_getD_e N N (by omega) (by omega)]
    rw [bdecodeCore_listLoop_end (nestedBytes N) f2 cap N [] none hg]
    rfl
  | succ k ih =>
    intro f cap hk hf
    obtain ⟨f1, rfl⟩ : ∃ f1, f = f1 + 1 := ⟨f - 1, by omega⟩
    have hlen : ¬ (nestedBytes N).length ≤ N - (k + 2) := by
      rw [nestedBytes_length]
      omega
    have hb : (nestedBytes N).getD (N - (k + 2)) 0 = 108 :=
      nestedBytes_getD_l N (N - (k + 2)) (by omega)
    rw [bdecodeCore_val_list (nestedBytes N) f1 cap (N - (k + 2)) hlen hb]
    have hN : N - (k + 2) + 1 = N - (k + 1) := by omega
    rw [hN]
    obtain ⟨f2, rfl⟩ : ∃ f2, f1 = f2 + 1 := ⟨f1 - 1, by omega⟩
    have hg : ¬ pySlice (nestedBytes N) (N - (k + 1)) (N - (k + 1) + 1) = [101] := by
      rw [pySlice_singleton (nestedBytes N) (N - (k + 1))
        (by rw [nestedBytes_length]; omega)]
      rw [nestedBytes_getD_l N (N - (k + 1)) (by omega)]
      simp
    rw [bdecodeCore_listLoop_step (nestedBytes N) f2 cap (N - (k + 1)) [] none hg]
    rw [ih f2 cap (by omega) (by omega)]
    dsimp only
    obtain ⟨f3, rfl⟩ : ∃ f3, f2 = f3 + 1 := ⟨f2 - 1, by omega⟩
    have hg2 : pySlice (nestedBytes N) (N + k + 1) (N + k + 1 + 1) = [101] := by
      rw [pySlice_singleton (nestedBytes N) (N + k + 1)
        (by rw [nestedBytes_length]; omega)]
      rw [nestedBytes_getD_e N (N + k + 1) (by omega) (by omega)]
    rw [bdecodeCore_listLoop_end (nestedBytes N) f3 cap (N + k + 1)
      ([] ++ [depthVal k]) (pyOr none none) hg2]
    rfl

theorem nested_decode_ok (n : Nat) (cap : Bool) :
    bdecode (nestedBytes (n + 1)) 0 cap = .ok (depthVal n, 2 * n + 2, none) := by
  unfold bdecode
  have h := nested_decode_aux (n + 1) n
    (2 * (nestedBytes (n + 1)).length + 4) cap (by omega)
    (by rw [nestedBytes_length]; omega)
  have h0 : (n + 1) - (n + 1) = 0 := by omega
  rw [h0] at h
  have h1 : n + 1 + n + 1 = 2 * n + 2 := by omega
  rw [h1] at h
  exact h

/-- C8 amended: the decoder imposes no maximum nesting depth: the
embedded decode is total and succeeds on the well-nested input of depth
`n + 1` for every `n` (the Python code has no `DepthLimitError` and no
configured bound; it recurses freely and is limited only by the host
interpreter's stack, whose overflow is a `RecursionError`, not a
`FormatError`/`TruncatedError`-class `BencodeError`). -/
theorem claim_C8_amended (n : Nat) (cap : Bool) :
    bdecode (nestedBytes (n + 1)) 0 cap = .ok (depthVal n, 2 * n + 2, none) :=
  nested_decode_ok n cap

/-- C8 counterexample: there is no bound `B` past which nesting makes
the decoder fail: for every candidate bound, the input of depth `B + 1`
decodes successfully, so the claimed configured depth limit does not
exist in the code. -/
theorem claim_C8_counterexample :
    ¬ ∃ B : Nat, ∀ n, B < n →
      ∃ err, bdecode (nestedBytes n) 0 false = .error err := by
  rintro ⟨B, hB⟩
  obtain ⟨err, herr⟩ := hB (B + 1) (by omega)
  rw [nested_decode_ok B false] at herr
  simp at herr

/-- C9: duplicate dictionary keys are not reported: `d[k] = v` replaces
the value at an existing key (first conjunct: a lookup after insert
always sees the inserted value, so the last occurrence wins), and a
buffer `d1:k<v1>1:k<v2>e` with the key `k` twice decodes successfully —
with or without capture — to the dictionary mapping `k` to the second
occurrence's value (second conjunct, for arbitrary one-byte values). -/
theorem claim_C9_duplicate_keys :
    (∀ (d : List (Bytes × Bencode)) (k : Bytes) (v : Bencode),
      pyGet (pyDictInsert d k v) k = some v) ∧
    (∀ (x y : Nat) (cap : Bool),
      bdecode [100, 49, 58, 107, 49, 58, x, 49, 58, 107, 49, 58, y, 101] 0 cap =
        .ok (.bdict [([107], .bstr [y])], 14, none)) := by
  constructor
  · exact pyGet_insert_self
  · intro x y cap
    cases cap <;> rfl

/-- C4 counterexample, at the spec's own example (`announce = http://a`,
`announce-list = [[http://a], [http://b]]`, no display name): the built
magnet contains `tr=http%3A//a` twice — the announce tracker is never
entered in the dedup set, and `quote` leaves `/` unescaped — so the
claimed single `tr=http%3A%2F%2Fa` parameter appears zero times, not
exactly once (second conjunct: that encoding is not even a substring). -/
theorem claim_C4_counterexample :
    magnet_from_info
      [(announceKey, .bstr (bOf "http://a")),
       (announceListKey, .blist [.blist [.bstr (bOf "http://a")],
         .blist [.bstr (bOf "http://b")]])]
      "btih:abc" "" =
      some "magnet:?xt=urn:btih:abc&tr=http%3A//a&tr=http%3A//a&tr=http%3A//b" ∧
    charsContain ("tr=http%3A%2F%2Fa").data
      ("magnet:?xt=urn:btih:abc&tr=http%3A//a&tr=http%3A//a&tr=http%3A//b").data
      = false := by
  constructor
  · decide
  · decide

/-- C4 amended: the magnet parameters appear in the order `xt`, `dn`
(only for a non-empty display name), the `tr` from `announce`, then the
`tr`s from the flattened `announce-list` — where only the
`announce-list` trackers are deduplicated (by decoded text, first
occurrence kept): a list tracker equal to `announce` is emitted a second
time, since `announce` is never entered into the seen-set, and a
repeated list tracker is emitted once. Percent-encoding is Python
`quote` with its default `safe='/'`, so `/` stays unescaped. -/
theorem claim_C4_amended (a b : Bytes)
    (ha : pyDecode .ignore a ≠ "") (hb : pyDecode .ignore b ≠ "")
    (hab : pyDecode .ignore a ≠ pyDecode .ignore b) :
    magnet_from_info
      [(announceKey, .bstr a),
       (announceListKey, .blist [.blist [.bstr a], .blist [.bstr b],
         .blist [.bstr a]])]
      "btih:abc" "Foo Bar" =
      some ("magnet:?" ++ joinAmp
        ["xt=" ++ pyQuote [58] "urn:btih:abc",
         "dn=" ++ pyQuote [47] "Foo Bar",
         "tr=" ++ pyQuote [47] (pyDecode .ignore a),
         "tr=" ++ pyQuote [47] (pyDecode .ignore a),
         "tr=" ++ pyQuote [47] (pyDecode .ignore b)]) := by
  have hba : pyDecode .ignore b ≠ pyDecode .ignore a := fun hc => hab hc.symm
  simp only [magnet_from_info, pyGet, flattenTrackers, concatAll, List.map,
    List.filterMap, trParams, List.append_nil, List.nil_append, List.cons_append]
  simp [ha, hb, hba, trParams,
    show (pyStartsWith "btih:abc" "btih:") = true from by decide,
    show ¬ (announceKey = announceListKey) from by decide,
    show ("urn:btih:" ++ pyStrDrop "btih:abc" 5) = "urn:btih:abc" from by decide]

/-- Witness for C4 at `announce = http://a`,
`announce-list = [[http://a], [http://b], [http://a]]`, display name
`Foo Bar`: the duplicate announce tracker is emitted again, the repeated
list tracker is deduplicated, and `/` is unescaped. -/
theorem claim_C4_witness :
    magnet_from_info
      [(announceKey, .bstr (bOf "http://a")),
       (announceListKey, .blist [.blist [.bstr (bOf "http://a")],
         .blist [.bstr (bOf "http://b")], .blist [.bstr (bOf "http://a")]])]
      "btih:abc" "Foo Bar" =
      some ("magnet:?xt=urn:btih:abc&dn=Foo%20Bar&tr=http%3A//a&tr=http%3A//a&tr=http%3A//b") := by
  rw [claim_C4_amended (bOf "http://a") (bOf "http://b") (by decide) (by decide)
    (by decide)]
  decide

/-- C5: evaluation at the failing input: a torrent whose `file tree`
maps a key to an integer value makes the extractor raise the
(uncaught) `TypeError` of `b"" in v`, failing the whole record, where
the spec promises best-effort extraction that never raises. -/
theorem claim_C5_file_tree_raises :
    torrent_file_list [(infoKey, .bdict [(fileTreeKey, .bdict [([97], .int 0)])])] =
      .error .typeError := by
  simp [torrent_file_list, walkTree, pyEmptyIn, pyGet, pyHasKey, infoKey,
    fileTreeKey, lengthKey, nameKey, filesKey]

theorem setAdd_self (ns : List String) (x : String) : x ∈ setAdd ns x := by
  by_cases hx : x ∈ ns <;> simp [setAdd, hx]

theorem setAdd_mono (ns : List String) (x y : String) (h : x ∈ ns) :
    x ∈ setAdd ns y := by
  by_cases hy : y ∈ ns <;> simp [setAdd, hy, h]

theorem walkTree_cons (ns : List String) (k : Bytes) (v : Bencode)
    (rest : List (Bytes × Bencode)) :
    walkTree ns ((k, v) :: rest) =
      (match pyEmptyIn v with
       | .error e => .error e
       | .ok true => walkTree (setAdd ns (pyDecode .ignore k)) rest
       | .ok false =>
         match v with
         | .bdict d =>
           match walkTree ns d with
           | .error e => .error e
           | .ok ns2 => walkTree ns2 rest
         | _ => walkTree ns rest) := by
  cases v with
  | bdict d => rw [walkTree.eq_2]
  | int m =>
    rw [walkTree.eq_3 _ _ _ _ (fun d hd => Bencode.noConfusion hd)]
  | bstr s =>
    rw [walkTree.eq_3 _ _ _ _ (fun d hd => Bencode.noConfusion hd)]
  | blist l =>
    rw [walkTree.eq_3 _ _ _ _ (fun d hd => Bencode.noConfusion hd)]

theorem walkTree_mono (ns : List String) (tree : List (Bytes × Bencode)) :
    ∀ res x, x ∈ ns → walkTree ns tree = .ok res → x ∈ res := by
  induction ns, tree using walkTree.induct with
  | case1 ns =>
    intro res x hx h
    obtain rfl : ns = res := by simpa [walkTree] using h
    exact hx
  | case2 ns k v rest e he =>
    intro res x hx h
    rw [walkTree_cons, he] at h
    simp at h
  | case3 ns k v rest he ih =>
    intro res x hx h
    rw [walkTree_cons, he] at h
    dsimp only at h
    exact ih res x (setAdd_mono ns x _ hx) h
  | case4 ns k rest d e hw he ihd =>
    intro res x hx h
    rw [walkTree_cons, he] at h
    dsimp only at h
    rw [hw] at h
    simp at h
  | case5 ns k rest d ns2 hw he ihd ihr =>
    intro res x hx h
    rw [walkTree_cons, he] at h
    dsimp only at h
    rw [hw] at h
    dsimp only at h
    exact ihr res x (ihd ns2 x hx hw) h
  | case6 ns k v rest he hnd ih =>
    intro res x hx h
    cases v with
    | int m => simp [pyEmptyIn] at he
    | bstr s => simp [pyEmptyIn] at he
    | blist l =>
      rw [walkTree_cons, he] at h
      dsimp only at h
      exact ih res x hx h
    | bdict d => exact absurd rfl (hnd d)

/-- C10: in the v2 file-tree walk, a node whose key maps to a
byte-string value passes the `b"" in v` membership test for every byte
string (the empty pattern is a substring of any bytes), so the key is
recorded as a file leaf: whenever the walk succeeds on a tree holding
`(k, bytes)`, the decoded key name is in the resulting name set. -/
theorem claim_C10_bstr_leaf (k bs : Bytes) (tree : List (Bytes × Bencode))
    (ns res : List String) (h1 : walkTree ns tree = .ok res)
    (h2 : (k, Bencode.bstr bs) ∈ tree) : pyDecode .ignore k ∈ res := by
  induction tree generalizing ns with
  | nil => simp at h2
  | cons hd rest ih =>
    obtain ⟨k1, v1⟩ := hd
    rw [walkTree_cons] at h1
    rcases List.mem_cons.mp h2 with hhd | htl
    · cases hhd
      rw [show pyEmptyIn (Bencode.bstr bs) = .ok true from rfl] at h1
      dsimp only at h1
      exact walkTree_mono _ rest res (pyDecode .ignore k)
        (setAdd_self ns (pyDecode .ignore k)) h1
    · rcases he : pyEmptyIn v1 with e | bv <;> rw [he] at h1 <;>
        try dsimp only at h1
      · simp at h1
      · cases bv with
        | true => exact ih _ h1 htl
        | false =>
          cases v1 with
          | int m => simp [pyEmptyIn] at he
          | bstr s =>
            dsimp only at h1
            exact ih _ h1 htl
          | blist l =>
            dsimp only at h1
            exact ih _ h1 htl
          | bdict d =>
            dsimp only at h1
            rcases hw : walkTree ns d with e | ns1 <;> rw [hw] at h1 <;>
              dsimp only at h1
            · simp at h1
            · exact ih _ h1 htl

/-- Witness for C10: a one-node tree whose key `a` maps to the byte
string `b` records `a` as a file leaf. -/
theorem claim_C10_witness : pyDecode .ignore [97] ∈ ["a"] :=
  claim_C10_bstr_leaf [97] [98] [([97], .bstr [98])] [] ["a"]
    (by simp [walkTree_cons, pyEmptyIn, setAdd, walkTree,
      show pyDecode .ignore [97] = "a" from by decide])
    (by simp)

theorem firstSat_mem {α} (p : α → Bool) (l : List α) (a : α)
    (h : firstSat p l a) : a ∈ l ∧ p a = true := by
  obtain ⟨l1, l2, rfl, hpa, -⟩ := h
  exact ⟨by simp, hpa⟩

theorem find?_eq_none_iff {α} (p : α → Bool) (l : List α) :
    l.find? p = none ↔ ∀ u ∈ l, p u = false := by
  induction l with
  | nil => simp
  | cons hd tl ih =>
    by_cases hp : p hd <;> simp [List.find?, hp, ih]

theorem find?_eq_some_first {α} (p : α → Bool) (l : List α) (a : α) :
    l.find? p = some a ↔ firstSat p l a := by
  induction l with
  | nil =>
    constructor
    · intro h; simp at h
    · rintro ⟨l1, l2, heq, -, -⟩
      exact absurd heq.symm (List.append_ne_nil_of_right_ne_nil l1 (by simp))
  | cons hd tl ih =>
    by_cases hp : p hd = true
    · rw [List.find?_cons_of_pos _ hp]
      constructor
      · intro h
        obtain rfl : hd = a := by simpa using h
        exact ⟨[], tl, rfl, hp, by simp⟩
      · rintro ⟨l1, l2, heq, hpa, hall⟩
        match l1, heq with
        | [], heq =>
          obtain ⟨rfl, -⟩ : hd = a ∧ tl = l2 := by simpa using heq
          rfl
        | c :: l1x, heq =>
          obtain ⟨rfl, -⟩ : hd = c ∧ tl = l1x ++ a :: l2 := by simpa using heq
          exact absurd (hall hd (by simp)) (by simp [hp])
    · rw [List.find?_cons_of_neg _ hp]
      rw [ih]
      constructor
      · rintro ⟨l1, l2, heq, hpa, hall⟩
        refine ⟨hd :: l1, l2, by rw [heq]; rfl, hpa, ?_⟩
        intro u hu
        rcases List.mem_cons.mp hu with rfl | hu2
        · simpa using hp
        · exact hall u hu2
      · rintro ⟨l1, l2, heq, hpa, hall⟩
        match l1, heq with
        | [], heq =>
          obtain ⟨rfl, -⟩ : hd = a ∧ tl = l2 := by simpa using heq
          exact absurd hpa hp
        | c :: l1x, heq =>
          obtain ⟨-, rfl⟩ : hd = c ∧ tl = l1x ++ a :: l2 := by simpa using heq
          exact ⟨l1x, l2, rfl, hpa, fun u hu => hall u (by simp [hu])⟩

theorem firstSat_none {α} (p : α → Bool) (l : List α) (a : α)
    (hn : ∀ u ∈ l, p u = false) (h : firstSat p l a) : False := by
  obtain ⟨hm, hp⟩ := firstSat_mem p l a h
  rw [hn a hm] at hp
  exact Bool.false_ne_true hp

/-- C7: the matcher returns the first record (in collection order)
satisfying the highest-priority tier — tier 1 exact case-insensitive
name equality, then tier 2 substring containment in either direction,
then tier 3 directory name inside some recorded file name — and none
exactly when no record satisfies any tier; in particular (third
conjunct) the tier-1 exact match `Movie Name` is selected even though
the earlier record `Movie Name Extended` satisfies tier 2. -/
theorem claim_C7_matcher_tiers :
    (∀ (d : String) (ts : List TRecord) (t : TRecord),
      match_movie_to_torrent d ts = some t ↔
        (firstSat (tier1Match (pyLower d)) ts t ∨
         ((∀ u ∈ ts, tier1Match (pyLower d) u = false) ∧
           firstSat (tier2Match (pyLower d)) ts t) ∨
         ((∀ u ∈ ts, tier1Match (pyLower d) u = false) ∧
          (∀ u ∈ ts, tier2Match (pyLower d) u = false) ∧
           firstSat (tier3Match (pyLower d)) ts t))) ∧
    (∀ (d : String) (ts : List TRecord),
      match_movie_to_torrent d ts = none ↔
        ∀ u ∈ ts, tier1Match (pyLower d) u = false ∧
          tier2Match (pyLower d) u = false ∧
          tier3Match (pyLower d) u = false) ∧
    match_movie_to_torrent "Movie Name"
      [⟨some "Movie Name Extended", []⟩, ⟨some "Movie Name", []⟩] =
      some ⟨some "Movie Name", []⟩ := by
  refine ⟨?_, ?_, ?_⟩
  · intro d ts t
    unfold match_movie_to_torrent
    dsimp only
    rcases h1 : ts.find? (tier1Match (pyLower d)) with _ | t1 <;>
      dsimp only
    · have hn1 : ∀ u ∈ ts, tier1Match (pyLower d) u = false :=
        (find?_eq_none_iff _ ts).mp h1
      rcases h2 : ts.find? (tier2Match (pyLower d)) with _ | t2 <;>
        dsimp only
      · have hn2 : ∀ u ∈ ts, tier2Match (pyLower d) u = false :=
          (find?_eq_none_iff _ ts).mp h2
        constructor
        · intro h
          rw [find?_eq_some_first] at h
          exact Or.inr (Or.inr ⟨hn1, hn2, h⟩)
        · rintro (hfs | ⟨-, hfs⟩ | ⟨-, -, hfs⟩)
          · exact absurd hfs (fun hc => firstSat_none _ ts t hn1 hc)
          · exact absurd hfs (fun hc => firstSat_none _ ts t hn2 hc)
          · rw [← find?_eq_some_first] at hfs
            exact hfs
      · constructor
        · intro h
          have ht : t2 = t := by simpa using h
          exact Or.inr (Or.inl ⟨hn1, ht ▸ (find?_eq_some_first _ ts t2).mp h2⟩)
        · rintro (hfs | ⟨-, hfs⟩ | ⟨-, hn2b, -⟩)
          · exact absurd hfs (fun hc => firstSat_none _ ts t hn1 hc)
          · rw [← find?_eq_some_first] at hfs
            rw [h2] at hfs
            exact hfs
          · exact absurd ((find?_eq_some_first _ ts t2).mp h2)
              (fun hc => firstSat_none _ ts t2 hn2b hc)
    · constructor
      · intro h
        have ht : t1 = t := by simpa using h
        exact Or.inl (ht ▸ (find?_eq_some_first _ ts t1).mp h1)
      · rintro (hfs | ⟨hn1b, -⟩ | ⟨hn1b, -, -⟩)
        · rw [← find?_eq_some_first] at hfs
          rw [h1] at hfs
          exact hfs
        · exact absurd ((find?_eq_some_first _ ts t1).mp h1)
            (fun hc => firstSat_none _ ts t1 hn1b hc)
        · exact absurd ((find?_eq_some_first _ ts t1).mp h1)
            (fun hc => firstSat_none _ ts t1 hn1b hc)
  · intro d ts
    unfold match_movie_to_torrent
    dsimp only
    rcases h1 : ts.find? (tier1Match (pyLower d)) with _ | t1 <;>
      dsimp only
    · have hn1 : ∀ u ∈ ts, tier1Match (pyLower d) u = false :=
        (find?_eq_none_iff _ ts).mp h1
      rcases h2 : ts.find? (tier2Match (pyLower d)) with _ | t2 <;>
        dsimp only
      · have hn2 : ∀ u ∈ ts, tier2Match (pyLower d) u = false :=
          (find?_eq_none_iff _ ts).mp h2
        constructor
        · intro h
          have hn3 : ∀ u ∈ ts, tier3Match (pyLower d) u = false :=
            (find?_eq_none_iff _ ts).mp h
          exact fun u hu => ⟨hn1 u hu, hn2 u hu, hn3 u hu⟩
        · intro h
          exact (find?_eq_none_iff _ ts).mpr (fun u hu => (h u hu).2.2)
      · constructor
        · intro h
          simp at h
        · intro h
          obtain ⟨hm, hp⟩ := firstSat_mem _ ts t2 ((find?_eq_some_first _ ts t2).mp h2)
          rw [(h t2 hm).2.1] at hp
          exact absurd hp (by simp)
    · constructor
      · intro h
        simp at h
      · intro h
        obtain ⟨hm, hp⟩ := firstSat_mem _ ts t1 ((find?_eq_some_first _ ts t1).mp h1)
        rw [(h t1 hm).1] at hp
        exact absurd hp (by simp)
  · decide
